import Mathlib

/-!
Verification of the chatbot core in `chatbot_app.py`: the Dijkstra path
router, the TF-IDF intent-classifier decision rule, and the dialog
state machine of the `/chat` endpoint.

Modelling conventions:
* A Python dict is embedded as an association list; `dict.get(k, d)`
  becomes `(List.lookup k l).getD d`.  `WF g` states the inner
  adjacency lists have no duplicate keys, which every real Python dict
  satisfies by construction.
* Edge weights are embedded as naturals (the router requires
  non-negative weights; all weights in the repository's data are
  integral).  `float("inf")` becomes `none : Option Nat`.
* The `heapq` priority queue is embedded as a list together with
  minimum extraction under the lexicographic order on the pushed
  tuples `(cost, node, path, directions)`, which is exactly the order
  `heapq` uses; entries that compare equal are identical tuples, so
  list-with-min-extraction and the binary heap pop the same values.
* The `while queue:` loop is embedded with explicit fuel
  `totalEdges g + 1 + 1`.  Each iteration pops one entry and the
  total number of entries ever pushed is at most `1 + totalEdges g`
  (a settled node pushes at most its out-degree and settles once), so
  the fuel is never exhausted and the fueled function agrees with the
  unfueled Python loop.
* External collaborators (spaCy tokenization / entity extraction, the
  Neo4j directory, the TF-IDF cosine similarity) are parameters of the
  embedded functions: `nlpTokens`, `nlpEnts`, `nlpPersons`,
  `findTeachers`, and `sim` (float similarities modelled as exact
  rationals).
-/

namespace ChatbotApp

/-- Properties stored on a `CONNECTED_TO` relationship: the optional
`weight` and optional `direction` keys of the edge-property dict. -/
structure EdgeProps where
  weight : Option Nat
  direction : Option String
deriving DecidableEq, Repr

/-- The adjacency mapping built by `build_graph_from_neo4j`:
`{source: {target: {weight, direction}}}`. -/
abbrev Graph := List (String × List (String × EdgeProps))

/-- `graph.get(node, {})` — the outgoing-edge dict of `node`. -/
def edgesOf (g : Graph) (u : String) : List (String × EdgeProps) :=
  (List.lookup u g).getD []

/-- The properties of the directed edge `u → v`, if present. -/
def edgeProps (g : Graph) (u v : String) : Option EdgeProps :=
  List.lookup v (edgesOf g u)

/-- `properties.get('weight', 1)` for the edge `u → v` (junk value `1`
when the edge is absent; only used under a path hypothesis). -/
def edgeWeight (g : Graph) (u v : String) : Nat :=
  match edgeProps g u v with
  | some pr => pr.weight.getD 1
  | none => 1

/-- `properties.get('direction', 'move forward')` for the edge `u → v`. -/
def edgeDir (g : Graph) (u v : String) : String :=
  match edgeProps g u v with
  | some pr => pr.direction.getD "move forward"
  | none => "move forward"

/-- `node in graph` — membership among the dict keys. -/
def hasKey (g : Graph) (u : String) : Bool :=
  (List.lookup u g).isSome

/-- Well-formedness inherited from Python dicts: within one adjacency
list no target occurs twice. -/
def WF (g : Graph) : Prop :=
  ∀ p ∈ g, ((p.2.map Prod.fst).Nodup)

instance : DecidablePred WF := fun g =>
  inferInstanceAs (Decidable (∀ p ∈ g, ((p.2.map Prod.fst).Nodup)))

/-- `p` is a directed path in `g` from `start` to its last node: built
from the single-node path by appending edges of the graph. -/
inductive PathTo (g : Graph) (start : String) : String → List String → Prop
  | nil : PathTo g start start [start]
  | snoc {u v : String} {p : List String} {pr : EdgeProps} :
      PathTo g start u p → edgeProps g u v = some pr → PathTo g start v (p ++ [v])

/-- Sum of the traversed edge weights along a node sequence, each
weight read as `properties.get('weight', 1)`. -/
def pathCost (g : Graph) : List String → Nat
  | u :: v :: rest => edgeWeight g u v + pathCost g (v :: rest)
  | _ => 0

/-- The instruction sequence read off a node sequence, each entry read
as `properties.get('direction', 'move forward')`. -/
def pathDirs (g : Graph) : List String → List String
  | u :: v :: rest => edgeDir g u v :: pathDirs g (v :: rest)
  | _ => []

/-- A `heapq` entry: `(cost, current_node, path_nodes, path_directions)`. -/
abbrev Entry := Nat × String × List String × List String

/-- Python `list < list` (lexicographic, shorter prefix first). -/
def listLtB : List String → List String → Bool
  | [], [] => false
  | [], _ :: _ => true
  | _ :: _, [] => false
  | a :: as, b :: bs =>
    if a < b then true else if b < a then false else listLtB as bs

/-- Python tuple `<=` on heap entries (lexicographic on the four
components), the order `heapq` pops by. -/
def entryLE (a b : Entry) : Bool :=
  if a.1 < b.1 then true
  else if b.1 < a.1 then false
  else if a.2.1 < b.2.1 then true
  else if b.2.1 < a.2.1 then false
  else if listLtB a.2.2.1 b.2.2.1 then true
  else if listLtB b.2.2.1 a.2.2.1 then false
  else if listLtB a.2.2.2 b.2.2.2 then true
  else if listLtB b.2.2.2 a.2.2.2 then false
  else true

/-- Extract the minimum entry (first among equals) of `e :: l` and
return it with the remaining entries: the behaviour of `heappop`. -/
def selectMin : Entry → List Entry → Entry × List Entry
  | e, [] => (e, [])
  | e, x :: xs =>
    if entryLE e x then
      ((selectMin e xs).1, x :: (selectMin e xs).2)
    else
      ((selectMin x xs).1, e :: (selectMin x xs).2)

/-- Total number of edges of the graph; bounds the number of heap
pushes the loop can ever perform. -/
def totalEdges (g : Graph) : Nat :=
  (g.map (fun p => p.2.length)).sum

/-- The `while queue:` loop of `dijkstra`, with explicit fuel (see the
header comment: the fuel provided by `dijkstra` is never exhausted). -/
def dijkstraLoop (g : Graph) (endN : String) :
    Nat → List Entry → List String → Option Nat × List String × List String
  | _, [], _ => (none, [], [])
  | 0, _ :: _, _ => (none, [], [])
  | fuel + 1, h :: t, seen =>
    let sm := selectMin h t
    let cost := sm.1.1
    let node := sm.1.2.1
    let path := sm.1.2.2.1
    let dirs := sm.1.2.2.2
    let rest := sm.2
    if node ∈ seen then
      dijkstraLoop g endN fuel rest seen
    else if node = endN then
      (some cost, path ++ [node], dirs)
    else
      dijkstraLoop g endN fuel
        (rest ++ (edgesOf g node).filterMap (fun pe =>
          if pe.1 ∈ node :: seen then none
          else some (cost + pe.2.weight.getD 1, pe.1, path ++ [node],
                     dirs ++ [pe.2.direction.getD "move forward"])))
        (node :: seen)

/-- `dijkstra(graph, start, end)`: returns
`(cost, path_nodes, path_directions)` with `none` as `float("inf")`. -/
def dijkstra (g : Graph) (start endN : String) :
    Option Nat × List String × List String :=
  dijkstraLoop g endN (totalEdges g + 1 + 1) [(0, start, [], [])] []

/-! ### Helper lemmas about paths, lookups and the priority queue -/

@[simp] theorem pathCost_nil (g : Graph) : pathCost g [] = 0 := rfl

@[simp] theorem pathCost_single (g : Graph) (x : String) : pathCost g [x] = 0 := rfl

@[simp] theorem pathCost_cons_cons (g : Graph) (u v : String) (rest : List String) :
    pathCost g (u :: v :: rest) = edgeWeight g u v + pathCost g (v :: rest) := rfl

@[simp] theorem pathDirs_nil (g : Graph) : pathDirs g [] = [] := rfl

@[simp] theorem pathDirs_single (g : Graph) (x : String) : pathDirs g [x] = [] := rfl

@[simp] theorem pathDirs_cons_cons (g : Graph) (u v : String) (rest : List String) :
    pathDirs g (u :: v :: rest) = edgeDir g u v :: pathDirs g (v :: rest) := rfl

theorem pathTo_getLast {g : Graph} {s v : String} {p : List String}
    (h : PathTo g s v p) : p.getLast? = some v := by
  induction h with
  | nil => rfl
  | snoc _ _ _ => exact List.getLast?_concat _

theorem pathTo_ne_nil {g : Graph} {s v : String} {p : List String}
    (h : PathTo g s v p) : p ≠ [] := by
  induction h with
  | nil => simp
  | snoc _ _ _ => simp

theorem pathCost_concat (g : Graph) :
    ∀ (p : List String) (u v : String), p.getLast? = some u →
      pathCost g (p ++ [v]) = pathCost g p + edgeWeight g u v := by
  intro p
  induction p with
  | nil => intro u v h; simp at h
  | cons x xs ih =>
    intro u v h
    cases xs with
    | nil =>
      simp only [List.getLast?_singleton, Option.some.injEq] at h
      subst h
      simp
    | cons y ys =>
      have h' : (y :: ys).getLast? = some u := by
        rwa [List.getLast?_cons_cons] at h
      have hih := ih u v h'
      simp only [List.cons_append] at hih ⊢
      rw [pathCost_cons_cons, pathCost_cons_cons]
      omega

theorem pathDirs_concat (g : Graph) :
    ∀ (p : List String) (u v : String), p.getLast? = some u →
      pathDirs g (p ++ [v]) = pathDirs g p ++ [edgeDir g u v] := by
  intro p
  induction p with
  | nil => intro u v h; simp at h
  | cons x xs ih =>
    intro u v h
    cases xs with
    | nil =>
      simp only [List.getLast?_singleton, Option.some.injEq] at h
      subst h
      simp
    | cons y ys =>
      have h' : (y :: ys).getLast? = some u := by
        rwa [List.getLast?_cons_cons] at h
      have hih := ih u v h'
      simp only [List.cons_append] at hih ⊢
      rw [pathDirs_cons_cons, pathDirs_cons_cons, hih]
      simp

theorem pathDirs_length (g : Graph) :
    ∀ (p : List String), p ≠ [] → p.length = (pathDirs g p).length + 1 := by
  intro p
  induction p with
  | nil => intro h; exact absurd rfl h
  | cons x xs ih =>
    intro _
    cases xs with
    | nil => simp
    | cons y ys =>
      have := ih (by simp)
      rw [pathDirs_cons_cons]
      simp only [List.length_cons] at this ⊢
      omega

theorem pathDirs_index (g : Graph) :
    ∀ (p : List String) (i : Nat) (u v : String),
      p[i]? = some u → p[i + 1]? = some v →
      (pathDirs g p)[i]? = some (edgeDir g u v) := by
  intro p
  induction p with
  | nil => intro i u v h _; simp at h
  | cons x xs ih =>
    intro i u v hu hv
    cases xs with
    | nil => cases i <;> simp at hv
    | cons y ys =>
      cases i with
      | zero =>
        simp only [List.getElem?_cons_zero, List.getElem?_cons_succ,
          Option.some.injEq] at hu hv
        subst hu
        subst hv
        simp
      | succ i =>
        rw [List.getElem?_cons_succ] at hu
        rw [List.getElem?_cons_succ] at hv
        have := ih i u v hu hv
        rw [pathDirs_cons_cons, List.getElem?_cons_succ]
        exact this

theorem lookup_mem {l : List (String × EdgeProps)} {k : String} {v : EdgeProps}
    (h : List.lookup k l = some v) : (k, v) ∈ l := by
  obtain ⟨l₁, l₂, rfl, -⟩ := List.lookup_eq_some_iff.mp h
  simp

theorem lookupG_mem {l : Graph} {k : String} {v : List (String × EdgeProps)}
    (h : List.lookup k l = some v) : (k, v) ∈ l := by
  obtain ⟨l₁, l₂, rfl, -⟩ := List.lookup_eq_some_iff.mp h
  simp

theorem nodup_lookup :
    ∀ {l : List (String × EdgeProps)} {k : String} {v : EdgeProps},
      (l.map Prod.fst).Nodup → (k, v) ∈ l → List.lookup k l = some v := by
  intro l
  induction l with
  | nil => intro k v _ h; simp at h
  | cons p t ih =>
    intro k v hnd h
    rcases List.mem_cons.mp h with heq | htail
    · subst heq
      simp [List.lookup]
    · have hk : k ∈ t.map Prod.fst := List.mem_map.mpr ⟨(k, v), htail, rfl⟩
      have hne : ¬ (k == p.1) := by
        simp only [List.map_cons, List.nodup_cons] at hnd
        intro hb
        exact hnd.1 (by simpa [← eq_of_beq hb] using hk)
      simp only [List.lookup, hne]
      exact ih (by simp only [List.map_cons, List.nodup_cons] at hnd; exact hnd.2) htail

theorem edgeProps_of_mem {g : Graph} (hwf : WF g) {u : String}
    {pe : String × EdgeProps} (hm : pe ∈ edgesOf g u) :
    edgeProps g u pe.1 = some pe.2 := by
  unfold edgeProps
  unfold edgesOf at hm ⊢
  cases hl : List.lookup u g with
  | none => simp [hl] at hm
  | some es =>
    rw [hl] at hm
    simp only [Option.getD_some] at hm ⊢
    have hkeys : (es.map Prod.fst).Nodup := hwf (u, es) (lookupG_mem hl)
    have hmm : (pe.1, pe.2) ∈ es := by simpa using hm
    exact nodup_lookup hkeys hmm

theorem edgeProps_isSome_of_mem {g : Graph} {u : String}
    {pe : String × EdgeProps} (hm : pe ∈ edgesOf g u) :
    (edgeProps g u pe.1).isSome := by
  unfold edgeProps
  rw [List.lookup_isSome_iff]
  exact ⟨pe, hm, by simp⟩

theorem entryLE_true_cost {a b : Entry} (h : entryLE a b = true) : a.1 ≤ b.1 := by
  unfold entryLE at h
  split_ifs at h <;> omega

theorem entryLE_false_cost {a b : Entry} (h : entryLE a b = false) : b.1 ≤ a.1 := by
  unfold entryLE at h
  split_ifs at h <;> omega

theorem selectMin_perm :
    ∀ (l : List Entry) (e : Entry),
      List.Perm ((selectMin e l).1 :: (selectMin e l).2) (e :: l) := by
  intro l
  induction l with
  | nil => intro e; simp [selectMin]
  | cons x xs ih =>
    intro e
    by_cases h : entryLE e x = true
    · simp only [selectMin, h, if_true]
      exact (List.Perm.swap _ _ _).trans (((ih e).cons x).trans (List.Perm.swap _ _ _))
    · have h' : entryLE e x = false := by simpa using h
      simp only [selectMin, h', Bool.false_eq_true, if_false]
      exact (List.Perm.swap _ _ _).trans ((ih x).cons e)

theorem selectMin_cost_le :
    ∀ (l : List Entry) (e : Entry) (y : Entry),
      y ∈ e :: l → (selectMin e l).1.1 ≤ y.1 := by
  intro l
  induction l with
  | nil =>
    intro e y hy
    rw [List.mem_singleton] at hy
    subst hy
    simp [selectMin]
  | cons x xs ih =>
    intro e y hy
    by_cases h : entryLE e x = true
    · simp only [selectMin, h, if_true]
      rcases List.mem_cons.mp hy with h1 | hy'
      · rw [h1]; exact ih e e (List.mem_cons_self _ _)
      · rcases List.mem_cons.mp hy' with h2 | hy''
        · rw [h2]
          exact le_trans (ih e e (List.mem_cons_self _ _)) (entryLE_true_cost h)
        · exact ih e y (List.mem_cons_of_mem _ hy'')
    · have h' : entryLE e x = false := by simpa using h
      simp only [selectMin, h', Bool.false_eq_true, if_false]
      rcases List.mem_cons.mp hy with h1 | hy'
      · rw [h1]
        exact le_trans (ih x x (List.mem_cons_self _ _)) (entryLE_false_cost h')
      · rcases List.mem_cons.mp hy' with h2 | hy''
        · rw [h2]; exact ih x x (List.mem_cons_self _ _)
        · exact ih x y (List.mem_cons_of_mem _ hy'')

/-! ### The Dijkstra loop invariant -/

/-- Invariant of the `while queue:` loop.  `D` records the settled
cost of every node in `seen`. -/
structure Inv (g : Graph) (start : String) (q : List Entry) (seen : List String)
    (D : String → Nat) : Prop where
  entries : ∀ e ∈ q, PathTo g start e.2.1 (e.2.2.1 ++ [e.2.1]) ∧
      pathCost g (e.2.2.1 ++ [e.2.1]) = e.1 ∧
      pathDirs g (e.2.2.1 ++ [e.2.1]) = e.2.2.2
  settledMin : ∀ u ∈ seen, ∀ p, PathTo g start u p → D u ≤ pathCost g p
  frontier : ∀ u ∈ seen, ∀ v pr, edgeProps g u v = some pr → v ∉ seen →
      ∃ e ∈ q, e.2.1 = v ∧ e.1 ≤ D u + pr.weight.getD 1
  startMem : start ∉ seen → (0, start, [], []) ∈ q

/-- Any path to an unsettled node is cost-dominated by some queue
entry: the core frontier argument of Dijkstra's algorithm. -/
theorem reach_bound {g : Graph} {start : String} {q : List Entry}
    {seen : List String} {D : String → Nat} (hInv : Inv g start q seen D) :
    ∀ {v : String} {p : List String}, PathTo g start v p → v ∉ seen →
      ∃ e ∈ q, e.1 ≤ pathCost g p := by
  intro v p hp
  induction hp with
  | nil =>
    intro hv
    exact ⟨(0, start, [], []), hInv.startMem hv, by simp⟩
  | @snoc u w p' pr hp' hedge ih =>
    intro hv
    have hlast : p'.getLast? = some u := pathTo_getLast hp'
    by_cases hu : u ∈ seen
    · obtain ⟨e, heq, hev, hec⟩ := hInv.frontier u hu w pr hedge hv
      refine ⟨e, heq, ?_⟩
      rw [pathCost_concat g p' u w hlast]
      have hDu := hInv.settledMin u hu p' hp'
      have hw : edgeWeight g u w = pr.weight.getD 1 := by
        simp [edgeWeight, hedge]
      rw [hw]
      omega
    · obtain ⟨e, heq, hec⟩ := ih hu
      refine ⟨e, heq, ?_⟩
      rw [pathCost_concat g p' u w hlast]
      omega

/-- Preservation of the invariant when the popped node is settled and
its neighbours are pushed. -/
theorem inv_step {g : Graph} {start : String} (hwf : WF g)
    {q : List Entry} {seen : List String} {D : String → Nat}
    {h : Entry} {t rest : List Entry} {c : Nat} {n : String} {p d : List String}
    (hInv : Inv g start q seen D) (hq : q = h :: t)
    (hsel : selectMin h t = ((c, n, p, d), rest)) (hn : n ∉ seen) :
    Inv g start
      (rest ++ (edgesOf g n).filterMap (fun pe =>
        if pe.1 ∈ n :: seen then none
        else some (c + pe.2.weight.getD 1, pe.1, p ++ [n],
                   d ++ [pe.2.direction.getD "move forward"])))
      (n :: seen)
      (fun u => if u = n then c else D u) := by
  have hperm : List.Perm ((c, n, p, d) :: rest) q := by
    have := selectMin_perm t h
    rw [hsel] at this
    rw [hq]
    exact this
  have hmemq : ((c, n, p, d) : Entry) ∈ q :=
    hperm.subset (List.mem_cons_self _ _)
  have hmin : ∀ y ∈ q, c ≤ y.1 := by
    intro y hy
    have := selectMin_cost_le t h y (by rw [← hq]; exact hy)
    rw [hsel] at this
    exact this
  have hme := hInv.entries _ hmemq
  have hPath : PathTo g start n (p ++ [n]) := hme.1
  have hCost : pathCost g (p ++ [n]) = c := hme.2.1
  have hDirs : pathDirs g (p ++ [n]) = d := hme.2.2
  have hmin_path : ∀ π, PathTo g start n π → c ≤ pathCost g π := by
    intro π hπ
    obtain ⟨e, heq, hle⟩ := reach_bound hInv hπ hn
    exact le_trans (hmin e heq) hle
  refine ⟨?_, ?_, ?_, ?_⟩
  · -- entries
    intro e he
    rcases List.mem_append.mp he with hr | hpush
    · exact hInv.entries e (hperm.subset (List.mem_cons_of_mem _ hr))
    · obtain ⟨pe, hpe_mem, hpe_eq⟩ := List.mem_filterMap.mp hpush
      by_cases hin : pe.1 ∈ n :: seen
      · simp [hin] at hpe_eq
      · simp only [hin, if_false] at hpe_eq
        have hep : edgeProps g n pe.1 = some pe.2 := edgeProps_of_mem hwf hpe_mem
        have hlast : (p ++ [n]).getLast? = some n := List.getLast?_concat _
        have hpe_eq' : (c + pe.2.weight.getD 1, pe.1, p ++ [n],
            d ++ [pe.2.direction.getD "move forward"]) = e := by
          simpa using hpe_eq
        subst hpe_eq'
        refine ⟨?_, ?_, ?_⟩
        · exact hPath.snoc hep
        · rw [pathCost_concat g (p ++ [n]) n pe.1 hlast]
          have hw : edgeWeight g n pe.1 = pe.2.weight.getD 1 := by
            simp [edgeWeight, hep]
          rw [hw, hCost]
        · rw [pathDirs_concat g (p ++ [n]) n pe.1 hlast]
          have hw : edgeDir g n pe.1 = pe.2.direction.getD "move forward" := by
            simp [edgeDir, hep]
          rw [hw, hDirs]
  · -- settledMin
    intro u hu π hπ
    rcases List.mem_cons.mp hu with h1 | h2
    · subst h1
      simp only [if_pos rfl]
      exact hmin_path π hπ
    · have hune : u ≠ n := fun hcon => hn (hcon ▸ h2)
      simp only [if_neg hune]
      exact hInv.settledMin u h2 π hπ
  · -- frontier
    intro u hu v pr hedge hv
    have hvn : v ≠ n := fun hcon => hv (by rw [hcon]; exact List.mem_cons_self _ _)
    have hvseen : v ∉ seen := fun hcon => hv (List.mem_cons_of_mem _ hcon)
    rcases List.mem_cons.mp hu with h1 | h2
    · subst h1
      have hmem : (v, pr) ∈ edgesOf g u := lookup_mem hedge
      have hpushed :
          (c + pr.weight.getD 1, v, p ++ [u], d ++ [pr.direction.getD "move forward"])
            ∈ (edgesOf g u).filterMap (fun pe =>
              if pe.1 ∈ u :: seen then none
              else some (c + pe.2.weight.getD 1, pe.1, p ++ [u],
                         d ++ [pe.2.direction.getD "move forward"])) := by
        apply List.mem_filterMap.mpr
        refine ⟨(v, pr), hmem, ?_⟩
        have : (v, pr).1 ∉ u :: seen := by
          intro hcon
          rcases List.mem_cons.mp hcon with hc1 | hc2
          · exact hvn hc1
          · exact hvseen hc2
        simp [this]
      refine ⟨_, List.mem_append_right _ hpushed, rfl, ?_⟩
      simp
    · have hune : u ≠ n := fun hcon => hn (hcon ▸ h2)
      obtain ⟨e, heq, hev, hec⟩ := hInv.frontier u h2 v pr hedge hvseen
      have hemem : e ∈ (c, n, p, d) :: rest := hperm.symm.subset heq
      rcases List.mem_cons.mp hemem with he1 | he2
      · exfalso
        apply hvn
        rw [← hev, he1]
      · refine ⟨e, List.mem_append_left _ he2, hev, ?_⟩
        simp only [if_neg hune]
        exact hec
  · -- startMem
    intro hs
    have hsn : start ≠ n := fun hcon => hs (by rw [hcon]; exact List.mem_cons_self _ _)
    have hsseen : start ∉ seen := fun hcon => hs (List.mem_cons_of_mem _ hcon)
    have hmem := hInv.startMem hsseen
    have hmem' : ((0, start, [], []) : Entry) ∈ (c, n, p, d) :: rest :=
      hperm.symm.subset hmem
    rcases List.mem_cons.mp hmem' with he1 | he2
    · exfalso
      apply hsn
      have := congrArg (fun e : Entry => e.2.1) he1
      simpa using this
    · exact List.mem_append_left _ he2

/-- Preservation of the invariant when the popped entry is stale
(its node was already settled) and is simply discarded. -/
theorem inv_stale {g : Graph} {start : String}
    {q : List Entry} {seen : List String} {D : String → Nat}
    {h : Entry} {t rest : List Entry} {c : Nat} {n : String} {p d : List String}
    (hInv : Inv g start q seen D) (hq : q = h :: t)
    (hsel : selectMin h t = ((c, n, p, d), rest)) (hn : n ∈ seen) :
    Inv g start rest seen D := by
  have hperm : List.Perm ((c, n, p, d) :: rest) q := by
    have := selectMin_perm t h
    rw [hsel] at this
    rw [hq]
    exact this
  refine ⟨?_, hInv.settledMin, ?_, ?_⟩
  · intro e he
    exact hInv.entries e (hperm.subset (List.mem_cons_of_mem _ he))
  · intro u hu v pr hedge hv
    obtain ⟨e, heq, hev, hec⟩ := hInv.frontier u hu v pr hedge hv
    have hemem : e ∈ (c, n, p, d) :: rest := hperm.symm.subset heq
    rcases List.mem_cons.mp hemem with he1 | he2
    · exfalso
      apply hv
      rw [← hev, he1]
      exact hn
    · exact ⟨e, he2, hev, hec⟩
  · intro hs
    have hmem := hInv.startMem hs
    have hmem' : ((0, start, [], []) : Entry) ∈ (c, n, p, d) :: rest :=
      hperm.symm.subset hmem
    rcases List.mem_cons.mp hmem' with he1 | he2
    · exfalso
      apply hs
      have := congrArg (fun e : Entry => e.2.1) he1
      simp at this
      rw [this]
      exact hn
    · exact he2

/-- The initial state of the loop satisfies the invariant. -/
theorem inv_init (g : Graph) (start : String) :
    Inv g start [(0, start, [], [])] [] (fun _ => 0) := by
  refine ⟨?_, ?_, ?_, ?_⟩
  · intro e he
    rw [List.mem_singleton] at he
    subst he
    exact ⟨PathTo.nil, by simp, by simp⟩
  · intro u hu; simp at hu
  · intro u hu; simp at hu
  · intro _; simp

/-- Main loop theorem: a finite result of the loop is a valid
start-to-end path with matching cost and instruction list, and its
cost is minimal among all start-to-end paths. -/
theorem loop_sound {g : Graph} {start endN : String} (hwf : WF g) :
    ∀ (fuel : Nat) (q : List Entry) (seen : List String) (D : String → Nat),
      Inv g start q seen D →
      ∀ {c : Nat} {pth dirs : List String},
        dijkstraLoop g endN fuel q seen = (some c, pth, dirs) →
        PathTo g start endN pth ∧ pathCost g pth = c ∧ pathDirs g pth = dirs ∧
        ∀ p, PathTo g start endN p → c ≤ pathCost g p := by
  intro fuel
  induction fuel with
  | zero =>
    intro q seen D _ c pth dirs hrun
    cases q <;> simp [dijkstraLoop] at hrun
  | succ fuel ih =>
    intro q seen D hInv c pth dirs hrun
    cases hq : q with
    | nil => rw [hq] at hrun; simp [dijkstraLoop] at hrun
    | cons h t =>
      rw [hq] at hrun
      obtain ⟨⟨c0, n0, p0, d0⟩, rest, hsel⟩ :
          ∃ e rest, selectMin h t = (e, rest) := ⟨_, _, rfl⟩
      rw [dijkstraLoop] at hrun
      simp only [hsel] at hrun
      by_cases hmem : n0 ∈ seen
      · rw [if_pos hmem] at hrun
        exact ih rest seen D (inv_stale hInv hq hsel hmem) hrun
      · rw [if_neg hmem] at hrun
        by_cases hend : n0 = endN
        · rw [if_pos hend] at hrun
          simp only [Prod.mk.injEq, Option.some.injEq] at hrun
          obtain ⟨hc, hpth, hdirs⟩ := hrun
          have hperm : List.Perm ((c0, n0, p0, d0) :: rest) q := by
            have := selectMin_perm t h
            rw [hsel] at this
            rw [hq]
            exact this
          have hmemq : ((c0, n0, p0, d0) : Entry) ∈ q :=
            hperm.subset (List.mem_cons_self _ _)
          have hme := hInv.entries _ hmemq
          have hendseen : endN ∉ seen := hend ▸ hmem
          refine ⟨?_, ?_, ?_, ?_⟩
          · rw [← hpth, ← hend]
            exact hme.1
          · rw [← hpth, ← hc]
            exact hme.2.1
          · rw [← hpth, ← hdirs]
            exact hme.2.2
          · intro p hp
            obtain ⟨e, heq, hle⟩ := reach_bound hInv hp hendseen
            have hcle : c0 ≤ e.1 := by
              have := selectMin_cost_le t h e (by rw [← hq]; exact heq)
              rw [hsel] at this
              exact this
            rw [← hc]
            exact le_trans hcle hle
        · rw [if_neg hend] at hrun
          exact ih _ _ _ (inv_step hwf hInv hq hsel hmem) hrun

/-- Whenever the first component of the loop result is `none`, the
whole result is the literal `(none, [], [])` the code returns. -/
theorem loop_none_shape {g : Graph} {endN : String} :
    ∀ (fuel : Nat) (q : List Entry) (seen : List String),
      (dijkstraLoop g endN fuel q seen).1 = none →
      dijkstraLoop g endN fuel q seen = (none, [], []) := by
  intro fuel
  induction fuel with
  | zero => intro q seen _; cases q <;> rfl
  | succ fuel ih =>
    intro q seen h1
    cases q with
    | nil => rfl
    | cons h t =>
      rw [dijkstraLoop] at h1 ⊢
      by_cases hmem : (selectMin h t).1.2.1 ∈ seen
      · rw [if_pos hmem] at h1 ⊢
        exact ih _ _ h1
      · rw [if_neg hmem] at h1 ⊢
        by_cases hend : (selectMin h t).1.2.1 = endN
        · rw [if_pos hend] at h1
          simp at h1
        · rw [if_neg hend] at h1 ⊢
          exact ih _ _ h1

/-- A finite loop result implies a start-to-end path exists (this
variant does not need the well-formedness of the graph). -/
theorem loop_reaches {g : Graph} {start endN : String} :
    ∀ (fuel : Nat) (q : List Entry) (seen : List String),
      (∀ e ∈ q, PathTo g start e.2.1 (e.2.2.1 ++ [e.2.1])) →
      ∀ {c : Nat} {pth dirs : List String},
        dijkstraLoop g endN fuel q seen = (some c, pth, dirs) →
        ∃ p, PathTo g start endN p := by
  intro fuel
  induction fuel with
  | zero =>
    intro q seen _ c pth dirs hrun
    cases q <;> simp [dijkstraLoop] at hrun
  | succ fuel ih =>
    intro q seen hq c pth dirs hrun
    cases hqe : q with
    | nil => rw [hqe] at hrun; simp [dijkstraLoop] at hrun
    | cons h t =>
      rw [hqe] at hrun
      obtain ⟨⟨c0, n0, p0, d0⟩, rest, hsel⟩ :
          ∃ e rest, selectMin h t = (e, rest) := ⟨_, _, rfl⟩
      have hperm : List.Perm ((c0, n0, p0, d0) :: rest) (h :: t) := by
        have := selectMin_perm t h
        rw [hsel] at this
        exact this
      have hqrest : ∀ e ∈ rest, PathTo g start e.2.1 (e.2.2.1 ++ [e.2.1]) := by
        intro e he
        exact hq e (by rw [hqe]; exact hperm.subset (List.mem_cons_of_mem _ he))
      have hPath0 := hq _ (by rw [hqe]; exact hperm.subset (List.mem_cons_self _ _))
      rw [dijkstraLoop] at hrun
      simp only [hsel] at hrun
      by_cases hmem : n0 ∈ seen
      · rw [if_pos hmem] at hrun
        exact ih rest seen hqrest hrun
      · rw [if_neg hmem] at hrun
        by_cases hend : n0 = endN
        · rw [if_pos hend] at hrun
          exact ⟨p0 ++ [n0], by rw [← hend]; exact hPath0⟩
        · rw [if_neg hend] at hrun
          apply ih _ _ _ hrun
          intro e he
          rcases List.mem_append.mp he with hr | hpush
          · exact hqrest e hr
          · obtain ⟨pe, hpe_mem, hpe_eq⟩ := List.mem_filterMap.mp hpush
            by_cases hin : pe.1 ∈ n0 :: seen
            · simp [hin] at hpe_eq
            · simp only [hin, if_false] at hpe_eq
              have hpe_eq' : (c0 + pe.2.weight.getD 1, pe.1, p0 ++ [n0],
                  d0 ++ [pe.2.direction.getD "move forward"]) = e := by
                simpa using hpe_eq
              subst hpe_eq'
              have hsome := edgeProps_isSome_of_mem hpe_mem
              obtain ⟨pr, hpr⟩ := Option.isSome_iff_exists.mp hsome
              exact hPath0.snoc hpr

/-! ### The fuel of `dijkstra` is never exhausted

`phi` bounds the remaining loop iterations: the queue length plus the
out-degrees of the unsettled source nodes.  Every iteration strictly
decreases it, so any fuel above the initial `phi` computes the same
value — the value of the unfueled Python `while` loop. -/

/-- Iteration potential of a loop state. -/
def phi (g : Graph) (q : List Entry) (seen : List String) : Nat :=
  q.length +
    ((g.filter (fun p => !(decide (p.1 ∈ seen)))).map (fun p => p.2.length)).sum

/-- One unfolding of the loop on a non-empty queue. -/
theorem dijkstraLoop_step (g : Graph) (endN : String) (fuel : Nat) (h : Entry)
    (t : List Entry) (seen : List String) :
    dijkstraLoop g endN (fuel + 1) (h :: t) seen =
      (if (selectMin h t).1.2.1 ∈ seen then
        dijkstraLoop g endN fuel (selectMin h t).2 seen
      else if (selectMin h t).1.2.1 = endN then
        (some (selectMin h t).1.1,
         (selectMin h t).1.2.2.1 ++ [(selectMin h t).1.2.1],
         (selectMin h t).1.2.2.2)
      else
        dijkstraLoop g endN fuel
          ((selectMin h t).2 ++ (edgesOf g (selectMin h t).1.2.1).filterMap (fun pe =>
            if pe.1 ∈ (selectMin h t).1.2.1 :: seen then none
            else some ((selectMin h t).1.1 + pe.2.weight.getD 1, pe.1,
                       (selectMin h t).1.2.2.1 ++ [(selectMin h t).1.2.1],
                       (selectMin h t).1.2.2.2 ++ [pe.2.direction.getD "move forward"])))
          ((selectMin h t).1.2.1 :: seen)) := rfl

/-- Settling a node only shrinks the unsettled-degree sum. -/
theorem phiSum_mono (g : Graph) (seen : List String) (n : String) :
    ((g.filter (fun p => !(decide (p.1 ∈ n :: seen)))).map (fun p => p.2.length)).sum ≤
    ((g.filter (fun p => !(decide (p.1 ∈ seen)))).map (fun p => p.2.length)).sum := by
  apply List.Sublist.sum_le_sum
  · apply List.Sublist.map
    apply List.monotone_filter_right
    intro a ha
    simp only [Bool.not_eq_true', decide_eq_false_iff_not, List.mem_cons,
      not_or] at ha ⊢
    exact ha.2
  · intro a _
    exact Nat.zero_le a

/-- Settling an unsettled source removes at least its out-degree from
the unsettled-degree sum. -/
theorem phiSum_settle :
    ∀ (g : Graph) (seen : List String) (n : String)
      (es : List (String × EdgeProps)),
      List.lookup n g = some es → n ∉ seen →
      ((g.filter (fun p => !(decide (p.1 ∈ n :: seen)))).map
        (fun p => p.2.length)).sum + es.length ≤
      ((g.filter (fun p => !(decide (p.1 ∈ seen)))).map (fun p => p.2.length)).sum := by
  intro g
  induction g with
  | nil => intro seen n es hlk _; simp [List.lookup] at hlk
  | cons p t ih =>
    intro seen n es hlk hn
    by_cases hp : n = p.1
    · have hbeq : (n == p.1) = true := by simp [hp]
      have hes : p.2 = es := by
        simp only [List.lookup, hbeq, cond_true, Option.some.injEq] at hlk
        exact hlk
      have hin1 : (!(decide (p.1 ∈ n :: seen))) = false := by
        simp [← hp]
      have hin2 : (!(decide (p.1 ∈ seen))) = true := by
        simp [← hp, hn]
      rw [List.filter_cons, List.filter_cons, hin1, hin2]
      simp only [Bool.false_eq_true, if_false, if_true, List.map_cons, List.sum_cons]
      have hmono := phiSum_mono t seen n
      have hlen : p.2.length = es.length := by rw [hes]
      omega
    · have hbeq : (n == p.1) = false := by simp [hp]
      have hlk' : List.lookup n t = some es := by
        simpa [List.lookup, hbeq] using hlk
      have hiff : (p.1 ∈ n :: seen) ↔ (p.1 ∈ seen) := by
        simp only [List.mem_cons]
        constructor
        · rintro (hc | hc)
          · exact absurd hc.symm hp
          · exact hc
        · intro hc
          exact Or.inr hc
      have hsame : (!(decide (p.1 ∈ n :: seen))) = (!(decide (p.1 ∈ seen))) := by
        simp [hiff]
      rw [List.filter_cons, List.filter_cons, hsame]
      by_cases hmem : (!(decide (p.1 ∈ seen))) = true
      · rw [hmem]
        simp only [if_true, List.map_cons, List.sum_cons]
        have := ih seen n es hlk' hn
        omega
      · rw [Bool.not_eq_true] at hmem
        rw [hmem]
        simp only [Bool.false_eq_true, if_false]
        exact ih seen n es hlk' hn

/-- When `n` is not a source of `g`, settling it leaves the
unsettled-degree sum unchanged. -/
theorem phiSum_nonsource (g : Graph) (seen : List String) (n : String)
    (hlk : List.lookup n g = none) :
    ((g.filter (fun p => !(decide (p.1 ∈ n :: seen)))).map (fun p => p.2.length)).sum =
    ((g.filter (fun p => !(decide (p.1 ∈ seen)))).map (fun p => p.2.length)).sum := by
  have hall := List.lookup_eq_none_iff.mp hlk
  have hfeq : g.filter (fun p => !(decide (p.1 ∈ n :: seen))) =
      g.filter (fun p => !(decide (p.1 ∈ seen))) := by
    apply List.filter_congr
    intro a ha
    have hane : n ≠ a.1 := by
      have := hall a ha
      simpa using this
    have hiff : (a.1 ∈ n :: seen) ↔ (a.1 ∈ seen) := by
      simp only [List.mem_cons]
      constructor
      · rintro (hc | hc)
        · exact absurd hc.symm hane
        · exact hc
      · intro hc
        exact Or.inr hc
    simp [hiff]
  rw [hfeq]

/-- The loop result does not depend on the fuel once the fuel exceeds
the potential `phi` of the state. -/
theorem dijkstraLoop_fuel_irrel (g : Graph) (endN : String) :
    ∀ (f1 : Nat) (q : List Entry) (seen : List String) (f2 : Nat),
      phi g q seen < f1 → phi g q seen < f2 →
      dijkstraLoop g endN f1 q seen = dijkstraLoop g endN f2 q seen := by
  intro f1
  induction f1 with
  | zero =>
    intro q seen f2 h1 _
    exact absurd h1 (Nat.not_lt_zero _)
  | succ f1 ih =>
    intro q seen f2 h1 h2
    cases f2 with
    | zero => exact absurd h2 (Nat.not_lt_zero _)
    | succ f2 =>
      cases q with
      | nil => rfl
      | cons h t =>
        obtain ⟨⟨c0, n0, p0, d0⟩, rest, hsel⟩ :
            ∃ e rest, selectMin h t = (e, rest) := ⟨_, _, rfl⟩
        have hrlen : rest.length = t.length := by
          have hp := selectMin_perm t h
          rw [hsel] at hp
          have hl := hp.length_eq
          simp only [List.length_cons] at hl
          omega
        rw [dijkstraLoop_step, dijkstraLoop_step]
        simp only [hsel]
        by_cases hmem : n0 ∈ seen
        · rw [if_pos hmem, if_pos hmem]
          refine ih _ _ _ ?_ ?_
          · unfold phi at h1 ⊢
            simp only [List.length_cons] at h1
            rw [hrlen]
            omega
          · unfold phi at h2 ⊢
            simp only [List.length_cons] at h2
            rw [hrlen]
            omega
        · rw [if_neg hmem, if_neg hmem]
          by_cases hend : n0 = endN
          · rw [if_pos hend, if_pos hend]
          · rw [if_neg hend, if_neg hend]
            have hpush : ((edgesOf g n0).filterMap (fun pe =>
                if pe.1 ∈ n0 :: seen then none
                else some (c0 + pe.2.weight.getD 1, pe.1, p0 ++ [n0],
                           d0 ++ [pe.2.direction.getD "move forward"]))).length ≤
                (edgesOf g n0).length :=
              List.length_filterMap_le _ _
            have hphi' : phi g
                (rest ++ (edgesOf g n0).filterMap (fun pe =>
                  if pe.1 ∈ n0 :: seen then none
                  else some (c0 + pe.2.weight.getD 1, pe.1, p0 ++ [n0],
                             d0 ++ [pe.2.direction.getD "move forward"])))
                (n0 :: seen) < phi g (h :: t) seen := by
              unfold phi
              rw [List.length_append, hrlen]
              cases hlk : List.lookup n0 g with
              | none =>
                have hz : edgesOf g n0 = [] := by
                  unfold edgesOf
                  rw [hlk]
                  rfl
                rw [hz]
                have heq := phiSum_nonsource g seen n0 hlk
                rw [heq]
                simp only [List.filterMap_nil, List.length_nil, List.length_cons]
                omega
              | some es =>
                have hes : edgesOf g n0 = es := by
                  unfold edgesOf
                  rw [hlk]
                  rfl
                rw [hes] at hpush
                rw [hes]
                have hle := phiSum_settle g seen n0 es hlk hmem
                simp only [List.length_cons]
                omega
            apply ih
            · omega
            · omega

/-- The initial potential equals `totalEdges g + 1`. -/
theorem phi_init (g : Graph) (s : String) :
    phi g [(0, s, [], [])] [] = totalEdges g + 1 := by
  unfold phi totalEdges
  have hfeq : g.filter (fun p => !(decide (p.1 ∈ ([] : List String)))) = g := by
    apply List.filter_eq_self.mpr
    intro a _
    simp
  rw [hfeq]
  simp [Nat.add_comm]

/-- Any fuel above `totalEdges g + 1` computes the same result as the
fuel `dijkstra` uses: the fueled loop is extensionally the Python
`while` loop. -/
theorem dijkstra_fuel_agnostic (g : Graph) (s e : String) (fuel : Nat)
    (h : totalEdges g + 1 < fuel) :
    dijkstraLoop g e fuel [(0, s, [], [])] [] = dijkstra g s e := by
  unfold dijkstra
  apply dijkstraLoop_fuel_irrel
  · rw [phi_init]
    omega
  · rw [phi_init]
    omega

/-- If no directed path from `s` to `e` exists, `dijkstra` returns
infinite cost and empty sequences. -/
theorem dijkstra_unreachable {g : Graph} {s e : String}
    (hnp : ∀ p, ¬ PathTo g s e p) : dijkstra g s e = (none, [], []) := by
  have hq : ∀ en ∈ ([(0, s, [], [])] : List Entry),
      PathTo g s en.2.1 (en.2.2.1 ++ [en.2.1]) := by
    intro en hen
    rw [List.mem_singleton] at hen
    subst hen
    exact PathTo.nil
  unfold dijkstra
  rcases hres : dijkstraLoop g e (totalEdges g + 1 + 1) [(0, s, [], [])] []
    with ⟨oc, pth, dirs⟩
  cases oc with
  | none =>
    have h1 : (dijkstraLoop g e (totalEdges g + 1 + 1) [(0, s, [], [])] []).1 = none := by
      rw [hres]
    have h2 := loop_none_shape _ _ _ h1
    rw [← hres]
    exact h2
  | some c =>
    exfalso
    obtain ⟨p, hp⟩ := loop_reaches _ _ _ hq hres
    exact hnp p hp

/-- C1: for every graph with non-negative edge weights (weights are
naturals here) whose start and end nodes are graph keys, a finite
result of `dijkstra` is a start-to-end path of the graph, its cost is
the sum of the traversed edge weights, its instruction list is the
list of traversed edge directions, and no start-to-end path has a smaller
total weight.  The two-edge scenario of the claim is the witness. -/
theorem C1_dijkstra_shortest {g : Graph} {start endN : String}
    (hwf : WF g) (hs : hasKey g start = true) (he : hasKey g endN = true)
    {c : Nat} {pth dirs : List String}
    (hrun : dijkstra g start endN = (some c, pth, dirs)) :
    PathTo g start endN pth ∧ pathCost g pth = c ∧ pathDirs g pth = dirs ∧
    ∀ p, PathTo g start endN p → c ≤ pathCost g p :=
  loop_sound hwf _ _ _ (fun _ => 0) (inv_init g start) hrun

/-- C6: for every graph and node `s` among its keys,
`dijkstra(graph, s, s)` returns cost 0, the single-node path `[s]`
and no instructions. -/
theorem C6_dijkstra_start_eq_end (g : Graph) (s : String)
    (hk : hasKey g s = true) : dijkstra g s s = (some 0, [s], []) := by
  simp [dijkstra, dijkstraLoop, selectMin]

/-- C7: every successful route has one more node than instructions,
and instruction `i` is the direction of the edge from node `i` to
node `i+1`. -/
theorem C7_route_shape {g : Graph} {start endN : String}
    (hwf : WF g) {c : Nat} {pth dirs : List String}
    (hrun : dijkstra g start endN = (some c, pth, dirs)) :
    pth.length = dirs.length + 1 ∧
    ∀ i u v, pth[i]? = some u → pth[i + 1]? = some v →
      dirs[i]? = some (edgeDir g u v) := by
  obtain ⟨hPath, -, hDirs, -⟩ :=
    loop_sound hwf _ _ _ (fun _ => 0) (inv_init g start) hrun
  constructor
  · rw [← hDirs]
    have := pathDirs_length g pth (pathTo_ne_nil hPath)
    omega
  · intro i u v hu hv
    rw [← hDirs]
    exact pathDirs_index g pth i u v hu hv

/-! ### The dialog controller (`/chat` endpoint and `handle_navigation`) -/

/-- A directory record returned by `find_teacher_by_name`. -/
structure Teacher where
  firstName : String
  lastName : String
  phone : String
  email : String
  cabin : String
  building : String
  department : String
deriving DecidableEq, Repr

/-- A user session.  Python stores a dict `{"state": ..., ...}`; the
other keys are read with the defaults `[]`, `0`, `""` via `.get`, so
the embedding carries them as total fields. -/
structure Session where
  state : String
  path : List String
  directions : List String
  current_step : Nat
  teachers : List Teacher
  teacher_cabin : String
deriving DecidableEq, Repr

/-- The session a fresh user gets: `{"state": "idle"}`. -/
def idleSession : Session := ⟨"idle", [], [], 0, [], ""⟩

/-- Python's `str.lower()` (character-wise, as for the ASCII data of
this application). -/
def pyLower (s : String) : String := ⟨s.data.map Char.toLower⟩

/-- Python's `str.upper()`. -/
def pyUpper (s : String) : String := ⟨s.data.map Char.toUpper⟩

/-- Python's `str.strip()`: remove leading and trailing whitespace. -/
def pyStrip (s : String) : String :=
  ⟨(((s.data.dropWhile Char.isWhitespace).reverse.dropWhile Char.isWhitespace).reverse)⟩

/-- List-of-characters prefix test. -/
def isPrefixL : List Char → List Char → Bool
  | [], _ => true
  | _ :: _, [] => false
  | a :: as, b :: bs => a == b && isPrefixL as bs

/-- Substring occurrence on character lists. -/
def containsSub : List Char → List Char → Bool
  | [], needle => isPrefixL needle []
  | hay@(_ :: t), needle => isPrefixL needle hay || containsSub t needle

/-- Python's substring test `needle in hay`. -/
def strContains (hay needle : String) : Bool :=
  containsSub hay.data needle.data

/-- The affirmation test of the `navigation_confirm` branch:
`"yes" in m or "ok" in m or "reached" in m` on the lower-cased text. -/
def affirms (m : String) : Bool :=
  strContains m "yes" || strContains m "ok" || strContains m "reached"

/-- Value of a non-empty all-digit character list. -/
def digitsVal (cs : List Char) : Option Nat :=
  if cs = [] then none
  else if cs.all Char.isDigit then
    some (cs.foldl (fun a c => a * 10 + (c.toNat - 48)) 0)
  else none

/-- Python's `int(str)`: optional surrounding whitespace, optional
sign, then decimal digits (digit-group underscores are not modelled;
no message in the claims uses them). -/
def pyInt? (s : String) : Option Int :=
  match (pyStrip s).data with
  | '-' :: rest => (digitsVal rest).map (fun n => -(n : Int))
  | '+' :: rest => (digitsVal rest).map (fun n => (n : Int))
  | cs => (digitsVal cs).map (fun n => (n : Int))

/-- Helper of `pySplitWs`: split on whitespace runs, accumulating the
current word reversed. -/
def splitWsAux : List Char → List Char → List String
  | [], acc => if acc = [] then [] else [⟨acc.reverse⟩]
  | c :: rest, acc =>
    if c.isWhitespace then
      if acc = [] then splitWsAux rest []
      else ⟨acc.reverse⟩ :: splitWsAux rest []
    else splitWsAux rest (c :: acc)

/-- Python's whitespace `str.split()` (no empty parts). -/
def pySplitWs (s : String) : List String :=
  splitWsAux s.data []

/-- The fixed intent corpus `knowledge_base` of the source. -/
def knowledge_base : List (String × List String) :=
  [("greeting", ["hello", "hi", "hey", "greetings", "good morning", "good afternoon"]),
   ("goodbye", ["bye", "goodbye", "see you", "take care"]),
   ("thanks", ["thanks", "thank you", "appreciate it"]),
   ("about", ["who are you", "what are you", "what can you do"]),
   ("navigate", ["navigate", "find", "go to", "reach", "how to get to", "directions"]),
   ("teacher_info", ["teacher", "faculty", "professor", "details of", "information on", "who is"])]

/-- All `(intent, phrase)` pairs in iteration order (intents, then
phrases), the order the two nested loops of `get_intent` scan. -/
def intentPairs : List (String × String) :=
  knowledge_base.flatMap (fun ip => ip.2.map (fun ph => (ip.1, ph)))

/-- The source's similarity threshold `0.3`, written as the reduced
rational `3/10` (see `simThreshold_eq`). -/
def simThreshold : ℚ := ⟨3, 10, by decide, by decide⟩

theorem simThreshold_eq : simThreshold = 3 / 10 := by
  apply Rat.ext <;> norm_num [simThreshold]

/-- `get_intent(user_input)`.  The TF-IDF cosine similarity of
`sklearn` is a parameter `sim` (float scores modelled as rationals);
the scan keeps the first pair that strictly improves the running
maximum, starting from `(0, "unknown")`, and applies the `0.3`
threshold at the end — exactly the source's decision rule. -/
def get_intent (sim : String → String → ℚ) (user_input : String) : String :=
  let lowered := pyLower user_input
  let best := knowledge_base.foldl
    (fun acc ip => ip.2.foldl
      (fun acc2 phrase =>
        if acc2.1 < sim lowered phrase then (sim lowered phrase, ip.1) else acc2)
      acc)
    ((0 : ℚ), "unknown")
  if simThreshold < best.1 then best.2 else "unknown"

/-- The detail reply built for a single teacher (used both by the
`teacher_info` intent branch and the `teacher_selection` state). -/
def teacherDetail (t : Teacher) : String :=
  "Here are the details for " ++ t.firstName ++ " " ++ t.lastName ++ ":\n" ++
  "Email: " ++ t.email ++ "\n" ++
  "Phone: " ++ t.phone ++ "\n" ++
  "Cabin: " ++ t.cabin ++ " in " ++ t.building ++ "\n" ++
  "Department: " ++ t.department ++ ".\n\n" ++
  "Would you like me to navigate you to their cabin?"

/-- The numbered candidate list reply for ambiguous teacher names. -/
def teacherListing (ts : List Teacher) : String :=
  "I found multiple teachers with that name. Please choose one:\n" ++
  String.join (ts.enum.map (fun it =>
    toString (it.1 + 1) ++ ". " ++ it.2.firstName ++ " " ++ it.2.lastName ++
    " (" ++ it.2.department ++ ")\n"))

/-- The start/end resolution of `handle_navigation`: the `from`/`to`
token scan (with the `try/except IndexError` silencing partial
failures), falling back to the first two extracted location entities.
A component is `none` when Python leaves the variable as `None`. -/
def resolveEndpoints (ents tokens : List String) : Option String × Option String :=
  let locations := ents.map pyUpper
  if "from" ∈ tokens ∧ "to" ∈ tokens then
    match tokens[tokens.indexOf "from" + 1]? with
    | none => (none, none)
    | some s =>
      match tokens[tokens.indexOf "to" + 1]? with
      | none => (some (pyUpper s), none)
      | some t => (some (pyUpper s), some (pyUpper t))
  else if locations.length ≥ 2 then
    (locations[0]?, locations[1]?)
  else (none, none)

/-- `handle_navigation(doc, user_id)`.  The spaCy document is passed
as the extracted location-entity texts `ents` and the token texts
`tokens`; the freshly built graph is `g` and `sess` is the caller's
session.  The result is `none` when the Python code would raise an
uncaught `IndexError` (reading `directions[0]` / `path[1]` of a
single-node route), otherwise `some (reply, updated session)`. -/
def handle_navigation (g : Graph) (ents tokens : List String) (sess : Session) :
    Option (String × Session) :=
  match resolveEndpoints ents tokens with
  | (some s, some t) =>
    if s = "" ∨ t = "" then
      some ("I can help with navigation. Please tell me where you are starting from and where you want to go, for example: 'Navigate from AB1-101 to AB2-205'.", sess)
    else if hasKey g s = false ∨ hasKey g t = false then
      some ("Sorry, I don't recognize one of the locations: " ++ s ++ " or " ++ t ++ ". Please use known location names.", sess)
    else
      match dijkstra g s t with
      | (_, [], _) =>
        some ("I'm sorry, I couldn't find a path from " ++ s ++ " to " ++ t ++ ".", sess)
      | (_, pn :: prest, dirs) =>
        match dirs[0]?, (pn :: prest)[1]? with
        | some d0, some p1 =>
          some ("Okay, starting navigation from " ++ s ++ " to " ++ t ++
                ". First, " ++ d0 ++ " to reach " ++ p1 ++
                ". Let me know when you're there.",
                { sess with state := "navigation_confirm", path := pn :: prest,
                            directions := dirs, current_step := 0 })
        | _, _ => none
  | _ =>
    some ("I can help with navigation. Please tell me where you are starting from and where you want to go, for example: 'Navigate from AB1-101 to AB2-205'.", sess)

/-- The `/chat` endpoint body for one message of one user.  External
collaborators are parameters: `nlpTokens`/`nlpEnts`/`nlpPersons` give
the spaCy token texts, location-entity texts and person-entity texts
of a text; `sim` is the TF-IDF cosine similarity; `findTeachers` is
the Neo4j directory query; `g` is the graph the navigation handler
builds.  The result is `none` exactly when the Python code would
raise an uncaught exception. -/
def chat (nlpTokens nlpEnts nlpPersons : String → List String)
    (sim : String → String → ℚ) (findTeachers : String → List Teacher)
    (g : Graph) (rawMessage : String) (sess : Session) :
    Option (String × Session) :=
  let message := pyStrip rawMessage
  if sess.state = "navigation_confirm" then
    if affirms (pyLower message) then
      if sess.current_step < sess.path.length - 1 then
        match sess.path[sess.current_step + 1]?, sess.directions[sess.current_step]? with
        | some next_node, some direction_text =>
          some ("Great! Now, " ++ direction_text ++ " to reach " ++ next_node ++
                ". Let me know when you've reached.",
                { sess with current_step := sess.current_step + 1 })
        | _, _ => none
      else
        some ("You have arrived at your destination!", { sess with state := "idle" })
    else
      some ("Okay, I'll wait. Just say 'yes' or 'reached' when you get there.", sess)
  else if sess.state = "teacher_selection" then
    match pyInt? message with
    | some nInt =>
      if 0 ≤ nInt - 1 ∧ nInt - 1 < (sess.teachers.length : Int) then
        match sess.teachers[(nInt - 1).toNat]? with
        | some teacher =>
          some (teacherDetail teacher,
                { sess with state := "navigate_to_teacher_confirm",
                            teacher_cabin := teacher.cabin })
        | none => none
      else
        some ("That's not a valid choice. Please pick a number from the list.", sess)
    | none =>
      some ("Please enter a number to choose a teacher.", sess)
  else if sess.state = "navigate_to_teacher_confirm" then
    if strContains (pyLower message) "yes" then
      handle_navigation g
        (nlpEnts ("go from my current location to " ++ sess.teacher_cabin))
        (nlpTokens ("go from my current location to " ++ sess.teacher_cabin))
        sess
    else
      some ("Alright. Let me know if you need anything else!", { sess with state := "idle" })
  else
    let intent := get_intent sim message
    if intent = "greeting" then
      some ("Hello! How can I help you today? You can ask me for directions or information about teachers.", sess)
    else if intent = "goodbye" then
      some ("Goodbye! Have a great day.", sess)
    else if intent = "thanks" then
      some ("You're welcome!", sess)
    else if intent = "about" then
      some ("I am a friendly AI assistant. I can help you navigate the campus and find information about faculty members.", sess)
    else if intent = "navigate" then
      handle_navigation g (nlpEnts message) (nlpTokens message) sess
    else if intent = "teacher_info" then
      match nlpPersons message with
      | [] =>
        some ("I can help with teacher details. Who are you looking for?", sess)
      | name :: _ =>
        match (pySplitWs name)[0]? with
        | none => none
        | some first_name =>
          match findTeachers first_name with
          | [] =>
            some ("I couldn't find any teacher named " ++ first_name ++ ".", sess)
          | [teacher] =>
            some (teacherDetail teacher,
                  { sess with state := "navigate_to_teacher_confirm",
                              teacher_cabin := teacher.cabin })
          | teachers =>
            some (teacherListing teachers,
                  { sess with state := "teacher_selection", teachers := teachers })
    else
      some ("I'm not sure how to help with that. You can ask me for directions like 'navigate from ab1 303 to ab2 112' or 'who is [teacher's name]?'", sess)

/-! ### The classifier decision rule -/

/-- One step of the strict-improvement argmax scan of `get_intent`. -/
def argmaxStep (f : String × String → ℚ) (acc : ℚ × String) (q : String × String) :
    ℚ × String :=
  if acc.1 < f q then (f q, q.1) else acc

theorem nested_foldl_eq (sim : String → String → ℚ) (lowered : String) :
    ∀ (kb : List (String × List String)) (acc : ℚ × String),
      kb.foldl (fun a ip => ip.2.foldl
        (fun acc2 phrase =>
          if acc2.1 < sim lowered phrase then (sim lowered phrase, ip.1) else acc2) a) acc =
      (kb.flatMap (fun ip => ip.2.map (fun ph => (ip.1, ph)))).foldl
        (argmaxStep (fun q => sim lowered q.2)) acc := by
  intro kb
  induction kb with
  | nil => intro acc; rfl
  | cons ip t ih =>
    intro acc
    rw [List.foldl_cons, List.flatMap_cons, List.foldl_append, List.foldl_map, ih]
    rfl

theorem get_intent_as_pairs (sim : String → String → ℚ) (input : String) :
    get_intent sim input =
      (if simThreshold <
          (intentPairs.foldl (argmaxStep (fun q => sim (pyLower input) q.2))
            ((0 : ℚ), "unknown")).1 then
        (intentPairs.foldl (argmaxStep (fun q => sim (pyLower input) q.2))
          ((0 : ℚ), "unknown")).2
      else "unknown") := by
  simp only [get_intent, intentPairs]
  rw [nested_foldl_eq]

theorem foldl_argmax_le (f : String × String → ℚ) (c : ℚ) :
    ∀ (l : List (String × String)) (acc : ℚ × String), acc.1 ≤ c →
      (∀ q ∈ l, f q ≤ c) → (l.foldl (argmaxStep f) acc).1 ≤ c := by
  intro l
  induction l with
  | nil => intro acc h _; exact h
  | cons q t ih =>
    intro acc hacc hl
    rw [List.foldl_cons]
    apply ih
    · unfold argmaxStep
      split
      · exact hl q (List.mem_cons_self _ _)
      · exact hacc
    · intro q' hq'
      exact hl q' (List.mem_cons_of_mem _ hq')

theorem foldl_argmax_lt (f : String × String → ℚ) (c : ℚ) :
    ∀ (l : List (String × String)) (acc : ℚ × String), acc.1 < c →
      (∀ q ∈ l, f q < c) → (l.foldl (argmaxStep f) acc).1 < c := by
  intro l
  induction l with
  | nil => intro acc h _; exact h
  | cons q t ih =>
    intro acc hacc hl
    rw [List.foldl_cons]
    apply ih
    · unfold argmaxStep
      split
      · exact hl q (List.mem_cons_self _ _)
      · exact hacc
    · intro q' hq'
      exact hl q' (List.mem_cons_of_mem _ hq')

theorem foldl_argmax_const (f : String × String → ℚ) :
    ∀ (l : List (String × String)) (acc : ℚ × String),
      (∀ q ∈ l, f q ≤ acc.1) → l.foldl (argmaxStep f) acc = acc := by
  intro l
  induction l with
  | nil => intro acc _; rfl
  | cons q t ih =>
    intro acc hl
    rw [List.foldl_cons]
    have hs : argmaxStep f acc q = acc := by
      unfold argmaxStep
      rw [if_neg (not_lt.mpr (hl q (List.mem_cons_self _ _)))]
    rw [hs]
    exact ih acc (fun q' hq' => hl q' (List.mem_cons_of_mem _ hq'))

/-- C8: if every (intent, phrase) similarity of the lower-cased input
is at most `0.3`, `get_intent` returns `"unknown"`; if the maximum is
above `0.3`, it returns the intent of the first pair attaining the
maximum in iteration order over intents then phrases.  The float
similarities of the source are modelled as the exact rationals the
abstract `sim` parameter returns. -/
theorem C8_get_intent_rule (sim : String → String → ℚ) (input : String) :
    ((∀ q ∈ intentPairs, sim (pyLower input) q.2 ≤ 3 / 10) →
      get_intent sim input = "unknown") ∧
    (∀ l1 l2 i ph, intentPairs = l1 ++ (i, ph) :: l2 →
      3 / 10 < sim (pyLower input) ph →
      (∀ q ∈ l1, sim (pyLower input) q.2 < sim (pyLower input) ph) →
      (∀ q ∈ l2, sim (pyLower input) q.2 ≤ sim (pyLower input) ph) →
      get_intent sim input = i) := by
  constructor
  · intro hall
    rw [get_intent_as_pairs]
    rw [if_neg]
    rw [simThreshold_eq, not_lt]
    apply foldl_argmax_le
    · norm_num
    · intro q hq
      exact hall q hq
  · intro l1 l2 i ph hsplit hthr hbefore hafter
    rw [get_intent_as_pairs, hsplit]
    rw [List.foldl_append, List.foldl_cons]
    have h0 : ((0 : ℚ), "unknown").1 < sim (pyLower input) ph := by
      refine lt_trans ?_ hthr
      norm_num
    have h1 : (l1.foldl (argmaxStep (fun q => sim (pyLower input) q.2))
        ((0 : ℚ), "unknown")).1 < sim (pyLower input) ph :=
      foldl_argmax_lt _ _ l1 _ h0 hbefore
    have hstep : argmaxStep (fun q => sim (pyLower input) q.2)
        (l1.foldl (argmaxStep (fun q => sim (pyLower input) q.2)) ((0 : ℚ), "unknown"))
        (i, ph) = (sim (pyLower input) ph, i) := by
      simp only [argmaxStep]
      rw [if_pos h1]
    rw [hstep]
    rw [foldl_argmax_const _ l2 _ hafter]
    rw [if_pos (by rw [simThreshold_eq]; exact hthr)]

/-- C9: in the states `navigation_confirm`, `teacher_selection` and
`navigate_to_teacher_confirm` the message is handled entirely by the
state-specific handler — the reply and session update do not depend
on the classifier at all, so `get_intent` is consulted only from the
`idle` state. -/
theorem C9_state_preempts_classifier
    (nlpTokens nlpEnts nlpPersons : String → List String)
    (sim1 sim2 : String → String → ℚ) (findTeachers : String → List Teacher)
    (g : Graph) (rawMessage : String) (sess : Session)
    (hstate : sess.state = "navigation_confirm" ∨ sess.state = "teacher_selection" ∨
      sess.state = "navigate_to_teacher_confirm") :
    chat nlpTokens nlpEnts nlpPersons sim1 findTeachers g rawMessage sess =
    chat nlpTokens nlpEnts nlpPersons sim2 findTeachers g rawMessage sess := by
  rcases hstate with h | h | h <;> simp [chat, h]

/-! ### Behaviour of the navigation handler -/

/-- The navigation handler either seeds a `navigation_confirm` session
or returns the caller's session untouched. -/
theorem handle_navigation_session (g : Graph) (ents tokens : List String)
    (sess : Session) (r : String) (s' : Session)
    (h : handle_navigation g ents tokens sess = some (r, s')) :
    s'.state = "navigation_confirm" ∨ s' = sess := by
  unfold handle_navigation at h
  rcases hre : resolveEndpoints ents tokens with ⟨os, ot⟩
  rw [hre] at h
  cases os with
  | none =>
    simp only [Option.some.injEq, Prod.mk.injEq] at h
    exact Or.inr h.2.symm
  | some s =>
    cases ot with
    | none =>
      simp only [Option.some.injEq, Prod.mk.injEq] at h
      exact Or.inr h.2.symm
    | some t =>
      simp only [] at h
      split at h
      · simp only [Option.some.injEq, Prod.mk.injEq] at h
        exact Or.inr h.2.symm
      · split at h
        · simp only [Option.some.injEq, Prod.mk.injEq] at h
          exact Or.inr h.2.symm
        · split at h
          · simp only [Option.some.injEq, Prod.mk.injEq] at h
            exact Or.inr h.2.symm
          · split at h
            · simp only [Option.some.injEq, Prod.mk.injEq] at h
              left
              rw [← h.2]
            · exact Option.noConfusion h

/-- Every session the chat endpoint stores keeps its state inside the
four dialog states (or returns the stored session unchanged): with
sessions created as `idle`, no reachable session ever carries a fifth
state, so the non-idle states of C9 are exhaustive. -/
theorem chat_states_closed
    (nlpTokens nlpEnts nlpPersons : String → List String)
    (sim : String → String → ℚ) (findTeachers : String → List Teacher)
    (g : Graph) (rawMessage : String) (sess : Session) (r : String) (s' : Session)
    (h : chat nlpTokens nlpEnts nlpPersons sim findTeachers g rawMessage sess =
      some (r, s')) :
    s'.state = sess.state ∨ s'.state = "idle" ∨ s'.state = "navigation_confirm" ∨
    s'.state = "teacher_selection" ∨ s'.state = "navigate_to_teacher_confirm" := by
  simp only [chat] at h
  repeat' split at h
  all_goals
    first
    | exact Option.noConfusion h
    | exact (handle_navigation_session _ _ _ _ _ _ h).elim
        (fun hnav => Or.inr (Or.inr (Or.inl hnav)))
        (fun hnav => Or.inl (by rw [hnav]))
    | (rw [show s' = _ from (congrArg Prod.snd (Option.some.inj h)).symm]; simp)

/-- The synthetic phrase `go from my current location to <cabin>`
always resolves its start to the literal token `MY` and its end to
the first cabin token. -/
theorem pyUpper_my : pyUpper "my" = "MY" := by decide

theorem resolve_my_tokens (ents : List String) (ct : String) (cts : List String) :
    resolveEndpoints ents
      (["go", "from", "my", "current", "location", "to"] ++ ct :: cts) =
      (some "MY", some (pyUpper ct)) := by
  simp [resolveEndpoints, List.indexOf_cons, pyUpper_my]

/-- Resolution of an explicit `from X to Y` token list. -/
theorem resolve_from_to (ents : List String) (sa sb : String) (hsa : sa ≠ "to") :
    resolveEndpoints ents ["from", sa, "to", sb] =
      (some (pyUpper sa), some (pyUpper sb)) := by
  have hbeq : (sa == "to") = false := by simp [hsa]
  simp [resolveEndpoints, List.indexOf_cons, hbeq]

/-- When an endpoint is not a graph key the handler replies with the
unrecognized-location message and does not touch the session. -/
theorem handle_navigation_unrecognized (g : Graph) (ents tokens : List String)
    (sess : Session) (s t : String)
    (hres : resolveEndpoints ents tokens = (some s, some t))
    (hs : s ≠ "") (ht : t ≠ "") (hkey : hasKey g s = false ∨ hasKey g t = false) :
    handle_navigation g ents tokens sess =
      some ("Sorry, I don't recognize one of the locations: " ++ s ++ " or " ++ t ++
            ". Please use known location names.", sess) := by
  simp only [handle_navigation, hres]
  rw [if_neg (by simp [hs, ht])]
  rw [if_pos hkey]

/-- When the router finds no path the handler apologises and does not
touch the session. -/
theorem handle_navigation_no_path (g : Graph) (ents tokens : List String)
    (sess : Session) (s t : String)
    (hres : resolveEndpoints ents tokens = (some s, some t))
    (hs : s ≠ "") (ht : t ≠ "") (hks : hasKey g s = true) (hkt : hasKey g t = true)
    (hdij : dijkstra g s t = (none, [], [])) :
    handle_navigation g ents tokens sess =
      some ("I'm sorry, I couldn't find a path from " ++ s ++ " to " ++ t ++ ".",
            sess) := by
  simp only [handle_navigation, hres]
  rw [if_neg (by simp [hs, ht])]
  rw [if_neg (by simp [hks, hkt])]
  simp [hdij]

/-- A result of `dijkstra` with a non-empty node sequence always
carries a finite cost. -/
theorem dijkstra_shape {g : Graph} {s t : String}
    (h : (dijkstra g s t).2.1 ≠ []) : ∃ c, (dijkstra g s t).1 = some c := by
  rcases hres : dijkstra g s t with ⟨oc, pth, dirs⟩
  rw [hres] at h
  cases oc with
  | none =>
    exfalso
    unfold dijkstra at hres
    have h1 : (dijkstraLoop g t (totalEdges g + 1 + 1) [(0, s, [], [])] []).1 = none := by
      rw [hres]
    have h2 := loop_none_shape _ _ _ h1
    rw [hres] at h2
    simp only [Prod.mk.injEq] at h2
    exact h (h2.2.1)
  | some c =>
    exact ⟨c, rfl⟩

/-- Every `navigation_confirm` session the handler seeds starts at
step 0 with an instruction list exactly one shorter than its node
list: the payload well-formedness assumed by the C3 theorem holds for
every session the code can actually store. -/
theorem handle_navigation_seeds (g : Graph) (hwf : WF g) (ents tokens : List String)
    (sess : Session) (r : String) (s' : Session)
    (h : handle_navigation g ents tokens sess = some (r, s')) :
    s' = sess ∨ (s'.state = "navigation_confirm" ∧ s'.current_step = 0 ∧
      s'.directions.length + 1 = s'.path.length) := by
  unfold handle_navigation at h
  rcases hre : resolveEndpoints ents tokens with ⟨os, ot⟩
  rw [hre] at h
  cases os with
  | none =>
    simp only [Option.some.injEq, Prod.mk.injEq] at h
    exact Or.inl h.2.symm
  | some s =>
    cases ot with
    | none =>
      simp only [Option.some.injEq, Prod.mk.injEq] at h
      exact Or.inl h.2.symm
    | some t =>
      simp only [] at h
      split at h
      · simp only [Option.some.injEq, Prod.mk.injEq] at h
        exact Or.inl h.2.symm
      · split at h
        · simp only [Option.some.injEq, Prod.mk.injEq] at h
          exact Or.inl h.2.symm
        · split at h
          · simp only [Option.some.injEq, Prod.mk.injEq] at h
            exact Or.inl h.2.symm
          · rename_i fst pn prest dirs heq
            split at h
            · rename_i d0 p1 hd0 hp1
              right
              have hs' : _ = s' := congrArg Prod.snd (Option.some.inj h)
              obtain ⟨c, hc⟩ := @dijkstra_shape g s t (by rw [heq]; simp)
              rw [heq] at hc
              simp only [] at hc
              have hfull : dijkstra g s t = (some c, pn :: prest, dirs) := by
                rw [heq, hc]
              obtain ⟨hPath, -, hDirs, -⟩ :=
                loop_sound hwf _ _ _ (fun _ => 0) (inv_init g s) hfull
              have hlen := pathDirs_length g _ (pathTo_ne_nil hPath)
              rw [hDirs] at hlen
              rw [← hs']
              exact ⟨rfl, rfl, hlen.symm⟩
            · exact Option.noConfusion h

/-! ### Remaining claim theorems about the dialog controller -/

/-- C3: in state `navigation_confirm` (with the route payload the
handler seeded, whose instruction list is one shorter than the node
list) an affirming message at a non-final step advances
`current_step` by exactly one, keeps the state, and the step counter
never exceeds `len(path) - 1`; an affirming message at the final step
announces arrival and returns to `idle`; any other message leaves the
session unchanged and asks to confirm again. -/
theorem C3_navigation_confirm_steps
    (nlpTokens nlpEnts nlpPersons : String → List String)
    (sim : String → String → ℚ) (findTeachers : String → List Teacher)
    (g : Graph) (rawMessage : String) (sess : Session)
    (hstate : sess.state = "navigation_confirm")
    (hwfs : sess.directions.length + 1 = sess.path.length) :
    (affirms (pyLower (pyStrip rawMessage)) = true →
      (sess.current_step < sess.path.length - 1 →
        ∃ nx dt, sess.path[sess.current_step + 1]? = some nx ∧
          sess.directions[sess.current_step]? = some dt ∧
          chat nlpTokens nlpEnts nlpPersons sim findTeachers g rawMessage sess =
            some ("Great! Now, " ++ dt ++ " to reach " ++ nx ++
                  ". Let me know when you've reached.",
                  { sess with current_step := sess.current_step + 1 }) ∧
          sess.current_step + 1 ≤ sess.path.length - 1) ∧
      (¬ sess.current_step < sess.path.length - 1 →
        chat nlpTokens nlpEnts nlpPersons sim findTeachers g rawMessage sess =
          some ("You have arrived at your destination!",
                { sess with state := "idle" }))) ∧
    (affirms (pyLower (pyStrip rawMessage)) = false →
      chat nlpTokens nlpEnts nlpPersons sim findTeachers g rawMessage sess =
        some ("Okay, I'll wait. Just say 'yes' or 'reached' when you get there.",
              sess)) := by
  refine ⟨?_, ?_⟩
  · intro haff
    refine ⟨?_, ?_⟩
    · intro hlt
      have hp1 : sess.current_step + 1 < sess.path.length := by omega
      have hd1 : sess.current_step < sess.directions.length := by omega
      refine ⟨sess.path[sess.current_step + 1], sess.directions[sess.current_step],
        List.getElem?_eq_getElem hp1, List.getElem?_eq_getElem hd1, ?_, by omega⟩
      simp [chat, hstate, haff, hlt,
        List.getElem?_eq_getElem hp1, List.getElem?_eq_getElem hd1]
    · intro hge
      simp [chat, hstate, haff, hge]
  · intro hnaff
    simp [chat, hstate, hnaff]

/-- C4: in state `teacher_selection` with a stored candidate list, a
message parsing as an integer `n` with `1 ≤ n ≤ len(candidates)`
selects candidate `n`, stores its cabin and moves to
`navigate_to_teacher_confirm` with the full-detail reply; an integer
out of range replies invalid and changes nothing; a non-integer
message asks for a number and changes nothing. -/
theorem C4_teacher_selection_choice
    (nlpTokens nlpEnts nlpPersons : String → List String)
    (sim : String → String → ℚ) (findTeachers : String → List Teacher)
    (g : Graph) (rawMessage : String) (sess : Session)
    (hstate : sess.state = "teacher_selection") :
    (∀ n : Int, pyInt? (pyStrip rawMessage) = some n →
      ((1 ≤ n ∧ n ≤ (sess.teachers.length : Int)) →
        ∃ tch, sess.teachers[(n - 1).toNat]? = some tch ∧
          chat nlpTokens nlpEnts nlpPersons sim findTeachers g rawMessage sess =
            some (teacherDetail tch,
                  { sess with state := "navigate_to_teacher_confirm",
                              teacher_cabin := tch.cabin })) ∧
      (¬ (1 ≤ n ∧ n ≤ (sess.teachers.length : Int)) →
        chat nlpTokens nlpEnts nlpPersons sim findTeachers g rawMessage sess =
          some ("That's not a valid choice. Please pick a number from the list.",
                sess))) ∧
    (pyInt? (pyStrip rawMessage) = none →
      chat nlpTokens nlpEnts nlpPersons sim findTeachers g rawMessage sess =
        some ("Please enter a number to choose a teacher.", sess)) := by
  refine ⟨?_, ?_⟩
  · intro n hn
    refine ⟨?_, ?_⟩
    · intro hin
      have hcond : 0 ≤ n - 1 ∧ n - 1 < (sess.teachers.length : Int) := by omega
      have hidx : (n - 1).toNat < sess.teachers.length := by omega
      have hget := List.getElem?_eq_getElem hidx
      refine ⟨sess.teachers[(n - 1).toNat], hget, ?_⟩
      simp only [chat, hstate, if_true]
      simp only [hn]
      rw [if_pos hcond]
      simp only [hget]
      rw [if_neg (by decide)]
    · intro hout
      have hcond : ¬ (0 ≤ n - 1 ∧ n - 1 < (sess.teachers.length : Int)) := by omega
      simp only [chat, hstate, if_true]
      simp only [hn]
      rw [if_neg hcond]
      rw [if_neg (by decide)]
  · intro hn
    simp only [chat, hstate, if_true]
    simp only [hn]
    rw [if_neg (by decide)]

/-- C5: when no directed path connects two valid graph keys,
`dijkstra` returns infinite cost with empty node and instruction
sequences, and the navigation handler replies apologetically leaving
the session unchanged. -/
theorem C5_no_path_reply {g : Graph} {s e : String} (sa sb : String)
    (ents : List String) (sess : Session)
    (hnp : ∀ p, ¬ PathTo g s e p)
    (hsa : pyUpper sa = s) (hsb : pyUpper sb = e) (hsane : sa ≠ "to")
    (hs0 : s ≠ "") (he0 : e ≠ "")
    (hks : hasKey g s = true) (hke : hasKey g e = true) :
    dijkstra g s e = (none, [], []) ∧
    handle_navigation g ents ["from", sa, "to", sb] sess =
      some ("I'm sorry, I couldn't find a path from " ++ s ++ " to " ++ e ++ ".",
            sess) := by
  have hdij := dijkstra_unreachable hnp
  refine ⟨hdij, ?_⟩
  have hres := resolve_from_to ents sa sb hsane
  rw [hsa, hsb] at hres
  exact handle_navigation_no_path g ents _ sess s e hres hs0 he0 hks hke hdij

/-- C10: an affirmation in `navigate_to_teacher_confirm` starts
navigation from the synthetic phrase, whose token scan always
resolves the start to the literal `MY`; on any graph without a node
named `MY` the reply is the unrecognized-location message and the
session stays in `navigate_to_teacher_confirm`. -/
theorem C10_teacher_nav_start_unresolvable
    (nlpTokens nlpEnts nlpPersons : String → List String)
    (sim : String → String → ℚ) (findTeachers : String → List Teacher)
    (g : Graph) (rawMessage : String) (sess : Session)
    (hstate : sess.state = "navigate_to_teacher_confirm")
    (haff : strContains (pyLower (pyStrip rawMessage)) "yes" = true)
    (ct : String) (cts : List String)
    (htok : nlpTokens ("go from my current location to " ++ sess.teacher_cabin) =
      ["go", "from", "my", "current", "location", "to"] ++ ct :: cts)
    (hct : pyUpper ct ≠ "")
    (hmy : hasKey g "MY" = false) :
    chat nlpTokens nlpEnts nlpPersons sim findTeachers g rawMessage sess =
      some ("Sorry, I don't recognize one of the locations: MY or " ++ pyUpper ct ++
            ". Please use known location names.", sess) := by
  have hchat : chat nlpTokens nlpEnts nlpPersons sim findTeachers g rawMessage sess =
      handle_navigation g
        (nlpEnts ("go from my current location to " ++ sess.teacher_cabin))
        (nlpTokens ("go from my current location to " ++ sess.teacher_cabin)) sess := by
    simp [chat, hstate, haff]
  rw [hchat, htok]
  exact handle_navigation_unrecognized g _ _ sess "MY" (pyUpper ct)
    (resolve_my_tokens _ ct cts) (by decide) hct (Or.inl hmy)

/-! ### The failing self-route input (claim C2) -/

/-- A similarity oracle that classifies everything as `navigate`. -/
def simNavigate : String → String → ℚ := fun _ ph => if ph = "navigate" then 1 else 0

/-- The spaCy token texts of `navigate from x to x`. -/
def tokensNavXX : String → List String := fun _ => ["navigate", "from", "x", "to", "x"]

/-- An entity extractor returning no entities. -/
def noEnts : String → List String := fun _ => []

/-- An empty teacher directory. -/
def noDirectory : String → List Teacher := fun _ => []

/-- A graph with the single node `X` and no edges. -/
def oneNodeGraph : Graph := [("X", [])]

set_option maxRecDepth 100000 in
/-- C2: REFUTED by the code — a navigation request whose resolved
start equals its resolved end (both valid graph keys) makes
`handle_navigation` read `directions[0]` and `path[1]` of the
single-node route `(0, [X], [])`, an uncaught `IndexError` (`none` in
this embedding), instead of the textual reply the claim promises. -/
theorem C2_self_route_uncaught_exception :
    chat tokensNavXX noEnts noEnts simNavigate noDirectory oneNodeGraph
      "navigate from x to x" idleSession = none := by decide

/-! ### Concrete fixtures and witnesses -/

/-- The two-edge graph of the claimed scenario:
`A → B` (weight 5, `turn left`), `B → C` (weight 5, `go straight`). -/
def twoEdgeGraph : Graph :=
  [("A", [("B", ⟨some 5, some "turn left"⟩)]),
   ("B", [("C", ⟨some 5, some "go straight"⟩)]),
   ("C", [])]

/-- A two-node graph with no edges at all. -/
def discGraph : Graph := [("S", []), ("E", [])]

/-- In a graph with no outgoing edges anywhere, the only paths are
the trivial one-node paths. -/
theorem no_edges_no_path {g : Graph} (hE : ∀ u, edgesOf g u = [])
    {s v : String} {p : List String} (h : PathTo g s v p) : v = s ∧ p = [s] := by
  induction h with
  | nil => exact ⟨rfl, rfl⟩
  | @snoc u w p' pr hp hedge ih =>
    exfalso
    have hnone : edgeProps g u w = none := by
      unfold edgeProps
      rw [hE]
      rfl
    rw [hnone] at hedge
    exact Option.noConfusion hedge

theorem discGraph_no_edges : ∀ u, edgesOf discGraph u = [] := by
  intro u
  unfold edgesOf discGraph
  rcases h1 : (u == "S") <;> rcases h2 : (u == "E") <;>
    simp [List.lookup, h1, h2]

/-- An in-progress navigation session: route `A, B, C` with the two
matching instructions, at step 0. -/
def navConfirmSession : Session :=
  ⟨"navigation_confirm", ["A", "B", "C"], ["turn left", "go straight"], 0, [], ""⟩

/-- Three directory candidates for the disambiguation scenario. -/
def teacherA : Teacher :=
  ⟨"Aayush", "Sharma", "9876543210", "aayush.sharma@university.edu",
   "AB1_303", "AB1", "Computer Science"⟩

def teacherB : Teacher :=
  ⟨"Sneha", "Verma", "8765432109", "sneha.verma@university.edu",
   "AB2_112", "AB2", "Electronics"⟩

def teacherC : Teacher :=
  ⟨"Aarav", "Gupta", "7654321098", "aarav.gupta@university.edu",
   "AB2_112", "AB2", "Mechanical"⟩

/-- A disambiguation session holding the three candidates. -/
def selectionSession : Session :=
  ⟨"teacher_selection", [], [], 0, [teacherA, teacherB, teacherC], ""⟩

/-- A session offering navigation to a stored teacher cabin. -/
def teacherNavSession : Session :=
  ⟨"navigate_to_teacher_confirm", [], [], 0, [], "AB1_303"⟩

/-- Tokens of the synthetic phrase for cabin `AB1_303`. -/
def tokTeacherNav : String → List String :=
  fun _ => ["go", "from", "my", "current", "location", "to", "AB1_303"]

/-- A similarity oracle giving phrase `hi` score 1 and all others 0. -/
def simGreeting : String → String → ℚ := fun _ ph => if ph = "hi" then 1 else 0

/-- Witness for C1: the claim's two-edge scenario, routed `A` to `C`:
cost 10, path `[A, B, C]`, instructions `[turn left, go straight]`,
and that route is optimal. -/
theorem C1_dijkstra_shortest_witness :
    dijkstra twoEdgeGraph "A" "C" =
      (some 10, ["A", "B", "C"], ["turn left", "go straight"]) ∧
    (PathTo twoEdgeGraph "A" "C" ["A", "B", "C"] ∧
     pathCost twoEdgeGraph ["A", "B", "C"] = 10 ∧
     pathDirs twoEdgeGraph ["A", "B", "C"] = ["turn left", "go straight"] ∧
     ∀ p, PathTo twoEdgeGraph "A" "C" p → 10 ≤ pathCost twoEdgeGraph p) :=
  ⟨by decide, C1_dijkstra_shortest (by decide) (by decide) (by decide) (by decide)⟩

/-- Witness for C3: affirming `yes` at step 0 of the three-node route
advances the session to step 1 with the next instruction. -/
theorem C3_navigation_confirm_witness :
    chat (fun _ => []) (fun _ => []) (fun _ => []) (fun _ _ => 0) (fun _ => [])
      [] "yes" navConfirmSession =
      some ("Great! Now, turn left to reach B. Let me know when you've reached.",
            { navConfirmSession with current_step := 1 }) := by
  obtain ⟨nx, dt, hnx, hdt, hchat, hbound⟩ :=
    ((C3_navigation_confirm_steps (fun _ => []) (fun _ => []) (fun _ => [])
        (fun _ _ => 0) (fun _ => []) [] "yes" navConfirmSession rfl (by decide)).1
      (by decide)).1 (by decide)
  have hnx' : nx = "B" := by
    have h2 : navConfirmSession.path[navConfirmSession.current_step + 1]? = some "B" := by
      decide
    rw [hnx] at h2
    exact Option.some.inj h2
  have hdt' : dt = "turn left" := by
    have h2 : navConfirmSession.directions[navConfirmSession.current_step]? =
        some "turn left" := by decide
    rw [hdt] at h2
    exact Option.some.inj h2
  rw [hnx', hdt'] at hchat
  exact hchat

/-- Witness for C4: choosing `1` from the 3-candidate list selects the
first candidate and offers navigation; choosing `4` is rejected with
the list unchanged. -/
theorem C4_teacher_selection_witness :
    (chat (fun _ => []) (fun _ => []) (fun _ => []) (fun _ _ => 0) (fun _ => [])
      [] "1" selectionSession =
      some (teacherDetail teacherA,
            { selectionSession with state := "navigate_to_teacher_confirm",
                                    teacher_cabin := teacherA.cabin })) ∧
    (chat (fun _ => []) (fun _ => []) (fun _ => []) (fun _ _ => 0) (fun _ => [])
      [] "4" selectionSession =
      some ("That's not a valid choice. Please pick a number from the list.",
            selectionSession)) := by
  constructor
  · obtain ⟨tch, hget, hchat⟩ :=
      ((C4_teacher_selection_choice (fun _ => []) (fun _ => []) (fun _ => [])
          (fun _ _ => 0) (fun _ => []) [] "1" selectionSession rfl).1 1
        (by decide)).1 (by decide)
    have htch : tch = teacherA := by
      have h2 : selectionSession.teachers[((1 : Int) - 1).toNat]? = some teacherA := by
        decide
      rw [hget] at h2
      exact Option.some.inj h2
    rw [htch] at hchat
    exact hchat
  · exact ((C4_teacher_selection_choice (fun _ => []) (fun _ => []) (fun _ => [])
        (fun _ _ => 0) (fun _ => []) [] "4" selectionSession rfl).1 4
      (by decide)).2 (by decide)

/-- Witness for C5: in the edgeless two-node graph, routing `S` to
`E` yields infinite cost and empty sequences, and the handler
apologises leaving the session unchanged. -/
theorem C5_no_path_witness :
    dijkstra discGraph "S" "E" = (none, [], []) ∧
    handle_navigation discGraph [] ["from", "s", "to", "e"] idleSession =
      some ("I'm sorry, I couldn't find a path from " ++ "S" ++ " to " ++ "E" ++ ".",
            idleSession) := by
  have hnp : ∀ p, ¬ PathTo discGraph "S" "E" p := by
    intro p hp
    exact absurd (no_edges_no_path discGraph_no_edges hp).1 (by decide)
  exact C5_no_path_reply "s" "e" [] idleSession hnp (by decide) (by decide)
    (by decide) (by decide) (by decide) (by decide) (by decide)

/-- Witness for C6: routing `A` to `A` in the two-edge graph. -/
theorem C6_dijkstra_start_eq_end_witness :
    dijkstra twoEdgeGraph "A" "A" = (some 0, ["A"], []) :=
  C6_dijkstra_start_eq_end twoEdgeGraph "A" (by decide)

/-- Witness for C7: the successful `A`-to-`C` route has 3 nodes and 2
instructions, each instruction matching its edge. -/
theorem C7_route_shape_witness :
    (["A", "B", "C"] : List String).length =
      (["turn left", "go straight"] : List String).length + 1 ∧
    ∀ i u v, (["A", "B", "C"] : List String)[i]? = some u →
      (["A", "B", "C"] : List String)[i + 1]? = some v →
      (["turn left", "go straight"] : List String)[i]? =
        some (edgeDir twoEdgeGraph u v) :=
  @C7_route_shape twoEdgeGraph "A" "C" (by decide) 10 ["A", "B", "C"]
    ["turn left", "go straight"] (by decide)

/-- Witness for C8: a similarity oracle scoring only the second
greeting phrase `hi` above the threshold classifies as `greeting`,
and the all-zero oracle classifies as `unknown`. -/
theorem C8_get_intent_rule_witness :
    get_intent simGreeting "good day" = "greeting" ∧
    get_intent (fun _ _ => 0) "good day" = "unknown" := by
  constructor
  · exact (C8_get_intent_rule simGreeting "good day").2
      [("greeting", "hello")] (List.drop 2 intentPairs) "greeting" "hi"
      (by decide) (by norm_num [simGreeting]) (by decide) (by decide)
  · exact (C8_get_intent_rule (fun _ _ => 0) "good day").1
      (by intro q hq; norm_num)

/-- Witness for C9: with the session mid-navigation, two different
similarity oracles produce identical chat behaviour. -/
theorem C9_state_preempts_classifier_witness :
    chat (fun _ => []) (fun _ => []) (fun _ => []) (fun _ _ => 0) (fun _ => [])
      [] "hello" navConfirmSession =
    chat (fun _ => []) (fun _ => []) (fun _ => []) (fun _ _ => 1) (fun _ => [])
      [] "hello" navConfirmSession :=
  C9_state_preempts_classifier (fun _ => []) (fun _ => []) (fun _ => [])
    (fun _ _ => 0) (fun _ _ => 1) (fun _ => []) [] "hello" navConfirmSession
    (Or.inl rfl)

/-- Witness for C10: affirming the navigation offer for cabin
`AB1_303` on a graph without a node `MY` replies with the
unrecognized-location message and leaves the session unchanged. -/
theorem C10_teacher_nav_start_unresolvable_witness :
    chat tokTeacherNav (fun _ => []) (fun _ => []) (fun _ _ => 0) (fun _ => [])
      oneNodeGraph "yes" teacherNavSession =
      some ("Sorry, I don't recognize one of the locations: MY or " ++
            pyUpper "AB1_303" ++ ". Please use known location names.",
            teacherNavSession) :=
  C10_teacher_nav_start_unresolvable tokTeacherNav (fun _ => []) (fun _ => [])
    (fun _ _ => 0) (fun _ => []) oneNodeGraph "yes" teacherNavSession rfl
    (by decide) "AB1_303" [] rfl (by decide) (by decide)

end ChatbotApp
